import Mathlib

/-!
Shallow embedding of the tinylink backend (an Express/Postgres URL shortener)
and proofs about its claims.

Source files embedded:
- `src/utils.js`: `ALPHABET`, `CODE_REGEX`, `generateCode`, `isValidCode`, `isValidUrl`.
- `src/unnamed/part_000` (`index.js`): the route handlers
  `POST /api/links`, `GET /api/links`, `GET /api/links/:code`,
  `DELETE /api/links/:code`, `GET /:code`.

The Postgres store is modelled as a list of link rows plus a serial id
counter.  Timestamps are natural numbers (`NOW()` becomes an explicit `now`
parameter).  `Math.random()` becomes an explicit stream of draws
`rand : Nat -> Fin 62`, one draw per generated character, exactly as
`Math.floor(Math.random() * ALPHABET.length)` produces a value in `[0, 61]`.
-/

namespace TinyLink

/-- The constant `ALPHABET` of `src/utils.js`: characters allowed in a code. -/
def ALPHABET : String := "abcdefghijklmnopqrstuvwxyzABCDEFGHIJKLMNOPQRSTUVWXYZ0123456789"

/-- Character class `[A-Za-z0-9]` of `CODE_REGEX` in `src/utils.js`.
Regex character ranges compare code points: `A`-`Z` is 65-90, `a`-`z` is
97-122, `0`-`9` is 48-57. -/
def isCodeChar (c : Char) : Bool :=
  (65 ≤ c.toNat && c.toNat ≤ 90) || (97 ≤ c.toNat && c.toNat ≤ 122) ||
    (48 ≤ c.toNat && c.toNat ≤ 57)

/-- The function `isValidCode` of `src/utils.js`: `CODE_REGEX.test(code)` with
`CODE_REGEX = /^[A-Za-z0-9]{6,8}$/`, i.e. the whole string is 6 to 8
characters, each in the class `[A-Za-z0-9]`. -/
def isValidCode (code : String) : Bool :=
  (6 ≤ code.length && code.length ≤ 8) && code.data.all isCodeChar

/-- Scheme characters allowed after the first character of a URL scheme. -/
def isSchemeChar (c : Char) : Bool :=
  c.isAlpha || c.isDigit || c = '+' || c = '-' || c = '.'

/-- Helper for `isValidUrl`: the remaining characters form the rest of a
scheme terminated by a colon. -/
def schemeRest : List Char → Bool
  | [] => false
  | c :: cs => if c = ':' then true else isSchemeChar c && schemeRest cs

/-- Modelled from the spec: `isValidUrl` in `src/utils.js` calls the platform
API `new URL(url)` (not part of this repository), whose success the spec
describes as "a syntactically valid absolute URL (parseable, with a scheme)".
We model exactly the scheme requirement: the string starts with an ASCII
letter followed by scheme characters up to a `:`. -/
def isValidUrl (url : String) : Bool :=
  match url.data with
  | [] => false
  | c :: cs => c.isAlpha && schemeRest cs

/-- Length of the alphabet, as used by `Math.floor(Math.random() * ALPHABET.length)`. -/
theorem alphabet_data_length : ALPHABET.data.length = 62 := by decide

/-- Characters of `generateCode` in `src/utils.js`: for `i` from `0` to
`len - 1`, pick `ALPHABET[rand i]` where `rand i` models the `i`-th value of
`Math.floor(Math.random() * ALPHABET.length)`.  The `offset` threads a single
global stream of draws through successive calls. -/
def generateChars (rand : Nat → Fin 62) (offset : Nat) : Nat → List Char
  | 0 => []
  | n + 1 =>
      ALPHABET.data.get (Fin.cast alphabet_data_length.symm (rand offset)) ::
        generateChars rand (offset + 1) n

/-- The function `generateCode` of `src/utils.js`, with the random stream and
the starting position in it made explicit. -/
def generateCode (rand : Nat → Fin 62) (offset len : Nat) : String :=
  String.mk (generateChars rand offset len)

/-- One row of the `links` table, as selected by the handlers in `index.js`
(`id`, `code`, `original_url`, `clicks`, `last_clicked_at`, `created_at`). -/
structure Link where
  id : Nat
  code : String
  original_url : String
  clicks : Nat
  last_clicked_at : Option Nat
  created_at : Nat
deriving DecidableEq, Repr

/-- The store: the `links` table plus the serial id counter.
Modelled from the spec: the schema (not under `src/`) gives `id` a serial
default, `clicks` a default of `0`, `last_clicked_at` null until first visit,
`created_at` the insertion time, and a unique constraint on `code`. -/
structure St where
  links : List Link
  nextId : Nat
deriving DecidableEq, Repr

/-- Row produced by `INSERT INTO links (code, original_url) VALUES ($1, $2)
RETURNING *`.  Modelled from the spec: the defaults (`clicks = 0`,
`last_clicked_at` null, `created_at = NOW()`, serial `id`) come from the
schema, which is not under `src/`. -/
def mkLink (id : Nat) (code url : String) (now : Nat) : Link :=
  { id := id, code := code, original_url := url, clicks := 0,
    last_clicked_at := none, created_at := now }

/-- Responses of `POST /api/links` in `index.js`, one constructor per
`res.status(...)` exit (`urlRequired` and `invalidUrl` and `invalidCode`
render as 400, `created` as 201, `conflict` as 409). -/
inductive CreateRes where
  | urlRequired
  | invalidUrl
  | invalidCode
  | conflict
  | created (link : Link)
deriving DecidableEq, Repr

/-- The `INSERT ... RETURNING *` step of `POST /api/links` together with the
`catch` clause for error `23505`.  Modelled from the spec for the store side:
the unique constraint on `code` (schema, not under `src/`) makes the insert
fail with a unique violation exactly when a row with that code is present at
insert time.  `inter` holds rows committed by concurrent requests between the
handler's pre-check and its insert, so the uniqueness test runs against
`s.links ++ inter`; the returned state reflects only this request's effect. -/
def tryInsert (s : St) (inter : List Link) (now : Nat) (code url : String) :
    CreateRes × St :=
  if (s.links ++ inter).any (fun l => l.code == code) then
    (.conflict, s)
  else
    (.created (mkLink s.nextId code url now),
      ⟨s.links ++ [mkLink s.nextId code url now], s.nextId + 1⟩)

/-- The generated-code branch of `POST /api/links`: `while (exists)` generate
`generateCode(6)` and `SELECT id FROM links WHERE code = $1`, looping while a
row exists.  The `i`-th candidate consumes draws `6*i .. 6*i+5` of the random
stream.  `fuel` bounds the unbounded JS loop; `none` means the loop is still
running after `fuel` iterations. -/
def findFresh (links : List Link) (rand : Nat → Fin 62) : Nat → Nat → Option String
  | 0, _ => none
  | fuel + 1, i =>
      let c := generateCode rand (6 * i) 6
      if links.any (fun l => l.code == c) then findFresh links rand fuel (i + 1)
      else some c

/-- Generated-code path of `POST /api/links`: find a candidate that passes
the pre-check, then run the single `INSERT`. -/
def createGenerated (s : St) (now : Nat) (url : String) (rand : Nat → Fin 62)
    (inter : List Link) (fuel : Nat) : Option (CreateRes × St) :=
  match findFresh s.links rand fuel 0 with
  | none => none
  | some c => some (tryInsert s inter now c url)

/-- The handler `POST /api/links` of `index.js`.  `url` and `code` come from
the request body; a missing `code` is `none`.  JS truthiness: `if (!url)`
fires on the empty string, and `if (finalCode)` treats the empty string like
an absent code, so `some ""` takes the generated-code path. -/
def createLink (s : St) (now : Nat) (url : String) (code : Option String)
    (rand : Nat → Fin 62) (inter : List Link) (fuel : Nat) :
    Option (CreateRes × St) :=
  if url = "" then some (.urlRequired, s)
  else if !isValidUrl url then some (.invalidUrl, s)
  else
    match code with
    | some c =>
        if c = "" then createGenerated s now url rand inter fuel
        else if !isValidCode c then some (.invalidCode, s)
        else some (tryInsert s inter now c url)
    | none => createGenerated s now url rand inter fuel

/-- Responses of `GET /:code` in `index.js`: `reservedNotFound` is the
404 "Not found" for `api`/`healthz`, `notFound` the 404 "Short URL not
found" (used both for a malformed code and for a missing row), `redirect`
the 302, `serverError` the 500 of the `catch` clause. -/
inductive ResolveRes where
  | reservedNotFound
  | notFound
  | redirect (url : String)
  | serverError
deriving DecidableEq, Repr

/-- The `UPDATE links SET clicks = clicks + 1, last_clicked_at = NOW()
WHERE id = $1` of `GET /:code`, applied to one row. -/
def bump (i now : Nat) (l : Link) : Link :=
  if l.id = i then { l with clicks := l.clicks + 1, last_clicked_at := some now }
  else l

/-- The handler `GET /:code` of `index.js`.  `updateFails` injects a failure
of the `UPDATE` query (the store throwing), in which case control reaches the
`catch` clause, which answers 500 and the store is left unchanged. -/
def resolveCode (s : St) (now : Nat) (code : String) (updateFails : Bool) :
    ResolveRes × St :=
  if code = "api" ∨ code = "healthz" then (.reservedNotFound, s)
  else if !isValidCode code then (.notFound, s)
  else
    match s.links.find? (fun l => l.code == code) with
    | none => (.notFound, s)
    | some link =>
        if updateFails then (.serverError, s)
        else (.redirect link.original_url,
          ⟨s.links.map (bump link.id now), s.nextId⟩)

/-- Responses of `DELETE /api/links/:code` in `index.js` (`invalidFormat` is
the 400, `notFound` the 404, `deleted` the 204). -/
inductive DeleteRes where
  | invalidFormat
  | notFound
  | deleted
deriving DecidableEq, Repr

/-- The handler `DELETE /api/links/:code` of `index.js`: validate the format,
run `DELETE FROM links WHERE code = $1`, answer 404 when `rowCount` is 0. -/
def deleteLink (s : St) (code : String) : DeleteRes × St :=
  if !isValidCode code then (.invalidFormat, s)
  else if s.links.all (fun l => !(l.code == code)) then (.notFound, s)
  else (.deleted, ⟨s.links.filter (fun l => !(l.code == code)), s.nextId⟩)

/-- Responses of `GET /api/links/:code` in `index.js`. -/
inductive StatsRes where
  | invalidFormat
  | notFound
  | ok (link : Link)
deriving DecidableEq, Repr

/-- The handler `GET /api/links/:code` of `index.js`: read-only stats lookup. -/
def getStats (s : St) (code : String) : StatsRes :=
  if !isValidCode code then .invalidFormat
  else
    match s.links.find? (fun l => l.code == code) with
    | none => .notFound
    | some link => .ok link

/-- Insertion step for `ORDER BY created_at DESC` (newest first). -/
def insertByCreated (l : Link) : List Link → List Link
  | [] => [l]
  | x :: xs =>
      if x.created_at ≤ l.created_at then l :: x :: xs
      else x :: insertByCreated l xs

/-- Insertion sort by `created_at`, newest first. -/
def orderByCreatedDesc : List Link → List Link
  | [] => []
  | x :: xs => insertByCreated x (orderByCreatedDesc xs)

/-- The `SELECT ... ORDER BY created_at DESC` of `GET /api/links`:
the rows sorted newest first.  Read-only. -/
def listLinks (s : St) : List Link :=
  orderByCreatedDesc s.links

/-- One request against the service, with all inputs explicit: the five
routes of `index.js`.  `create` runs with an empty race window
(`inter = []`): interleaving of whole requests is expressed by sequences
of `Op`. -/
inductive Op where
  | create (now : Nat) (url : String) (code : Option String)
      (rand : Nat → Fin 62) (fuel : Nat)
  | resolve (now : Nat) (code : String) (updateFails : Bool)
  | listAll
  | stats (code : String)
  | del (code : String)

/-- Effect of one request on the store.  `listAll` and `stats` only read;
a `create` whose generation loop is still running (`none`) has not committed
anything. -/
def applyOp (s : St) : Op → St
  | .create now url code rand fuel =>
      match createLink s now url code rand [] fuel with
      | none => s
      | some (_, s₁) => s₁
  | .resolve now code updateFails => (resolveCode s now code updateFails).2
  | .listAll => s
  | .stats _ => s
  | .del code => (deleteLink s code).2

/-- Effect of a sequence of requests, oldest first. -/
def applyOps (s : St) (ops : List Op) : St :=
  ops.foldl applyOp s

/-- Store well-formedness, maintained by the schema: `id` values are
pairwise distinct and below the serial counter, and the unique constraint
keeps `code` values pairwise distinct. -/
def WF (s : St) : Prop :=
  s.links.Pairwise (fun a b => a.id ≠ b.id) ∧
  s.links.Pairwise (fun a b => a.code ≠ b.code) ∧
  ∀ r ∈ s.links, r.id < s.nextId

instance (s : St) : Decidable (WF s) := by
  unfold WF; infer_instance

/-! Helper lemmas about characters and code generation. -/

/-- The character class of `CODE_REGEX` holds exactly the characters of
`ALPHABET`: the regex ranges `A-Z`, `a-z`, `0-9` enumerate the 62 symbols. -/
theorem isCodeChar_iff_mem (c : Char) : isCodeChar c = true ↔ c ∈ ALPHABET.data := by
  constructor
  · intro h
    have hc : Char.ofNat c.toNat = c := Char.ofNat_toNat c
    simp only [isCodeChar, Bool.or_eq_true, Bool.and_eq_true, decide_eq_true_eq] at h
    have key : ∀ n : Nat, ((65 ≤ n ∧ n ≤ 90) ∨ (97 ≤ n ∧ n ≤ 122) ∨ (48 ≤ n ∧ n ≤ 57)) →
        Char.ofNat n ∈ ALPHABET.data := by
      intro n hn
      rcases hn with ⟨h1, h2⟩ | ⟨h1, h2⟩ | ⟨h1, h2⟩ <;> interval_cases n <;> decide
    rw [← hc]
    exact key c.toNat (by tauto)
  · intro h
    fin_cases h <;> decide

/-- A generated character list has the requested length. -/
theorem generateChars_length (rand : Nat → Fin 62) (offset len : Nat) :
    (generateChars rand offset len).length = len := by
  induction len generalizing offset with
  | zero => rfl
  | succ n ih => simp [generateChars, ih]

/-- Every generated character is drawn from `ALPHABET`. -/
theorem generateChars_mem (rand : Nat → Fin 62) (offset len : Nat) :
    ∀ c ∈ generateChars rand offset len, c ∈ ALPHABET.data := by
  induction len generalizing offset with
  | zero => intro c hc; simp [generateChars] at hc
  | succ n ih =>
      intro c hc
      simp only [generateChars, List.mem_cons] at hc
      rcases hc with h | h
      · rw [h]; exact List.get_mem _ _ _
      · exact ih (offset + 1) c h

/-- A code accepted by the pre-check loop is absent from the rows the loop
was checked against. -/
theorem findFresh_fresh (links : List Link) (rand : Nat → Fin 62) :
    ∀ fuel i c, findFresh links rand fuel i = some c → ∀ l ∈ links, l.code ≠ c := by
  intro fuel
  induction fuel with
  | zero => intro i c h; simp [findFresh] at h
  | succ n ih =>
      intro i c h
      rw [findFresh] at h
      split at h
      · exact ih (i + 1) c h
      · rename_i hany
        intro l hl
        cases h
        intro hEq
        exact hany (List.any_eq_true.mpr ⟨l, hl, by simp [hEq]⟩)

/-- The visit update keeps the row id. -/
theorem bump_id (i now : Nat) (l : Link) : (bump i now l).id = l.id := by
  unfold bump; split <;> rfl

/-- The visit update keeps the row code. -/
theorem bump_code (i now : Nat) (l : Link) : (bump i now l).code = l.code := by
  unfold bump; split <;> rfl

/-- The visit update keeps the destination. -/
theorem bump_url (i now : Nat) (l : Link) :
    (bump i now l).original_url = l.original_url := by
  unfold bump; split <;> rfl

/-- The visit update keeps the creation time. -/
theorem bump_created (i now : Nat) (l : Link) :
    (bump i now l).created_at = l.created_at := by
  unfold bump; split <;> rfl

/-- The visit update on the selected row. -/
theorem bump_hit (i now : Nat) (l : Link) (h : l.id = i) :
    bump i now l = { l with clicks := l.clicks + 1, last_clicked_at := some now } := by
  unfold bump; simp [h]

/-- The visit update leaves other rows alone. -/
theorem bump_miss (i now : Nat) (l : Link) (h : l.id ≠ i) : bump i now l = l := by
  unfold bump; simp [h]

/-- Two rows of an id-distinct table with the same id are the same row. -/
theorem eq_of_mem_id (links : List Link)
    (hp : links.Pairwise (fun a b => a.id ≠ b.id)) :
    ∀ a ∈ links, ∀ b ∈ links, a.id = b.id → a = b := by
  induction links with
  | nil => intro a ha; simp at ha
  | cons x xs ih =>
      intro a ha b hb hab
      rcases List.pairwise_cons.mp hp with ⟨hx, hxs⟩
      rcases List.mem_cons.mp ha with rfl | ha₁
      · rcases List.mem_cons.mp hb with rfl | hb₁
        · rfl
        · exact absurd hab (hx b hb₁)
      · rcases List.mem_cons.mp hb with rfl | hb₁
        · exact absurd hab.symm (hx a ha₁)
        · exact ih hxs a ha₁ b hb₁ hab

/-! Shape of the effect of one request on the store. -/

/-- The insert step either reports a conflict and leaves the store alone, or
appends a fresh row and advances the id counter. -/
theorem tryInsert_shape (s : St) (inter : List Link) (now : Nat) (c url : String) :
    tryInsert s inter now c url = (.conflict, s) ∨
    ((∀ l ∈ s.links ++ inter, l.code ≠ c) ∧
      tryInsert s inter now c url =
        (.created (mkLink s.nextId c url now),
          ⟨s.links ++ [mkLink s.nextId c url now], s.nextId + 1⟩)) := by
  unfold tryInsert
  split
  · exact Or.inl rfl
  · rename_i hany
    refine Or.inr ⟨?_, rfl⟩
    intro l hl hEq
    exact hany (List.any_eq_true.mpr ⟨l, hl, by simp [hEq]⟩)

/-- Every request maps the store to one of four shapes: unchanged; rows with
one code filtered out (`DELETE`); one row's counters bumped (`GET /:code`);
or a fresh row appended (`POST /api/links`). -/
theorem applyOp_shape (s : St) (op : Op) :
    applyOp s op = s
    ∨ (∃ c, isValidCode c = true ∧ op = Op.del c ∧
        applyOp s op = ⟨s.links.filter (fun l => !(l.code == c)), s.nextId⟩)
    ∨ (∃ link now, link ∈ s.links ∧ op = Op.resolve now link.code false ∧
        link.code ≠ "api" ∧ link.code ≠ "healthz" ∧ isValidCode link.code = true ∧
        applyOp s op = ⟨s.links.map (bump link.id now), s.nextId⟩)
    ∨ (∃ c url now, (∀ l ∈ s.links, l.code ≠ c) ∧
        applyOp s op = ⟨s.links ++ [mkLink s.nextId c url now], s.nextId + 1⟩ ∧
        ∃ codeArg rand fuel, op = Op.create now url codeArg rand fuel) := by
  cases op with
  | listAll => exact Or.inl rfl
  | stats code => exact Or.inl rfl
  | del code =>
      by_cases hv : isValidCode code = true
      · by_cases hall : s.links.all (fun l => !(l.code == code)) = true
        · exact Or.inl (by simp [applyOp, deleteLink, hv, hall])
        · exact Or.inr (Or.inl ⟨code, hv, rfl, by simp [applyOp, deleteLink, hv, hall]⟩)
      · exact Or.inl (by simp [applyOp, deleteLink, hv])
  | resolve now code fail =>
      by_cases hres : code = "api" ∨ code = "healthz"
      · exact Or.inl (by simp [applyOp, resolveCode, hres])
      · by_cases hv : isValidCode code = true
        · cases hfind : s.links.find? (fun l => l.code == code) with
          | none => exact Or.inl (by simp [applyOp, resolveCode, hres, hv, hfind])
          | some link =>
              have hmem : link ∈ s.links := List.mem_of_find?_eq_some hfind
              have hcode : link.code = code := by
                have := List.find?_some hfind
                simpa using this
              cases fail with
              | true => exact Or.inl (by simp [applyOp, resolveCode, hres, hv, hfind])
              | false =>
                  refine Or.inr (Or.inr (Or.inl ⟨link, now, hmem, ?_, ?_, ?_, ?_, ?_⟩))
                  · rw [hcode]
                  · rw [hcode]; intro h; exact hres (Or.inl h)
                  · rw [hcode]; intro h; exact hres (Or.inr h)
                  · rw [hcode]; exact hv
                  · simp [applyOp, resolveCode, hres, hv, hfind]
        · exact Or.inl (by simp [applyOp, resolveCode, hres, hv])
  | create now url codeArg rand fuel =>
      by_cases hurl : url = ""
      · exact Or.inl (by simp [applyOp, createLink, hurl])
      · by_cases hvu : isValidUrl url = true
        · have hgen : ∀ h : createLink s now url codeArg rand [] fuel =
              createGenerated s now url rand [] fuel,
              applyOp s (Op.create now url codeArg rand fuel) = s
              ∨ (∃ c url₁ now₁, (∀ l ∈ s.links, l.code ≠ c) ∧
                  applyOp s (Op.create now url codeArg rand fuel) =
                    ⟨s.links ++ [mkLink s.nextId c url₁ now₁], s.nextId + 1⟩ ∧
                  ∃ codeArg₁ rand₁ fuel₁,
                    Op.create now url codeArg rand fuel =
                      Op.create now₁ url₁ codeArg₁ rand₁ fuel₁) := by
            intro h
            cases hf : findFresh s.links rand fuel 0 with
            | none =>
                refine Or.inl ?_
                simp [applyOp, h, createGenerated, hf]
            | some c =>
                rcases tryInsert_shape s [] now c url with hti | ⟨hfreshAll, hti⟩
                · refine Or.inl ?_
                  simp [applyOp, h, createGenerated, hf, hti]
                · refine Or.inr ⟨c, url, now, ?_, ?_, codeArg, rand, fuel, rfl⟩
                  · intro l hl
                    exact hfreshAll l (by simpa using hl)
                  · simp [applyOp, h, createGenerated, hf, hti]
          cases codeArg with
          | none =>
              have h : createLink s now url none rand [] fuel =
                  createGenerated s now url rand [] fuel := by
                simp [createLink, hurl, hvu]
              rcases hgen h with h₁ | h₁
              · exact Or.inl h₁
              · exact Or.inr (Or.inr (Or.inr h₁))
          | some c =>
              by_cases hc : c = ""
              · have h : createLink s now url (some c) rand [] fuel =
                    createGenerated s now url rand [] fuel := by
                  simp [createLink, hurl, hvu, hc]
                rcases hgen h with h₁ | h₁
                · exact Or.inl h₁
                · exact Or.inr (Or.inr (Or.inr h₁))
              · by_cases hvc : isValidCode c = true
                · rcases tryInsert_shape s [] now c url with hti | ⟨hfreshAll, hti⟩
                  · exact Or.inl (by
                      simp [applyOp, createLink, hurl, hvu, hc, hvc, hti])
                  · refine Or.inr (Or.inr (Or.inr
                      ⟨c, url, now, ?_, ?_, some c, rand, fuel, rfl⟩))
                    · intro l hl
                      exact hfreshAll l (by simpa using hl)
                    · simp [applyOp, createLink, hurl, hvu, hc, hvc, hti]
                · exact Or.inl (by simp [applyOp, createLink, hurl, hvu, hc, hvc])
        · exact Or.inl (by simp [applyOp, createLink, hurl, hvu])

/-! Per-step and multi-step invariants. -/

/-- A surviving row is either untouched or exactly visit-bumped by a
successful resolution of its own code. -/
theorem step_char (s : St) (op : Op) (hWF : WF s) (r : Link) (hr : r ∈ s.links)
    (r' : Link) (hr' : r' ∈ (applyOp s op).links) (hid : r.id = r'.id) :
    r' = r ∨ ∃ now, r' = { r with clicks := r.clicks + 1, last_clicked_at := some now } ∧
      op = Op.resolve now r.code false ∧ r.code ≠ "api" ∧ r.code ≠ "healthz" := by
  obtain ⟨hpid, hpcode, hbound⟩ := hWF
  rcases applyOp_shape s op with hs | ⟨c, hv, hop, hs⟩ |
      ⟨link, now, hlink, hop, hapi, hhz, hvl, hs⟩ | ⟨c, url, now, hfresh, hs, hop⟩
  · rw [hs] at hr'
    exact Or.inl (eq_of_mem_id s.links hpid r' hr' r hr hid.symm)
  · rw [hs] at hr'
    have hr'mem : r' ∈ s.links := List.mem_of_mem_filter hr'
    exact Or.inl (eq_of_mem_id s.links hpid r' hr'mem r hr hid.symm)
  · rw [hs] at hr'
    rcases List.mem_map.mp hr' with ⟨a, ha, hab⟩
    have haid : a.id = r.id := by rw [hid, ← hab, bump_id]
    have har : a = r := eq_of_mem_id s.links hpid a ha r hr haid
    subst har
    by_cases hal : a.id = link.id
    · have : link = a := eq_of_mem_id s.links hpid link hlink a ha hal.symm
      subst this
      refine Or.inr ⟨now, ?_, hop, hapi, hhz⟩
      rw [← hab, bump_hit _ _ _ hal]
    · exact Or.inl (by rw [← hab, bump_miss _ _ _ hal])
  · rw [hs] at hr'
    rcases List.mem_append.mp hr' with h | h
    · exact Or.inl (eq_of_mem_id s.links hpid r' h r hr hid.symm)
    · exfalso
      have : r' = mkLink s.nextId c url now := by simpa using h
      have : r'.id = s.nextId := by rw [this]; rfl
      have := hbound r hr
      omega

/-- A row whose id was not present before can only come from a create, and
then its counters are fresh. -/
theorem new_row_char (s : St) (op : Op) (r' : Link)
    (hr' : r' ∈ (applyOp s op).links) (hnew : ∀ r ∈ s.links, r.id ≠ r'.id) :
    r'.clicks = 0 ∧ r'.last_clicked_at = none ∧ r'.id = s.nextId ∧
      ∃ now url codeArg rand fuel, op = Op.create now url codeArg rand fuel := by
  rcases applyOp_shape s op with hs | ⟨c, hv, hop, hs⟩ |
      ⟨link, now, hlink, hop, hapi, hhz, hvl, hs⟩ | ⟨c, url, now, hfresh, hs, hop⟩
  · rw [hs] at hr'
    exact absurd rfl (hnew r' hr')
  · rw [hs] at hr'
    exact absurd rfl (hnew r' (List.mem_of_mem_filter hr'))
  · rw [hs] at hr'
    rcases List.mem_map.mp hr' with ⟨a, ha, hab⟩
    have : a.id = r'.id := by rw [← hab, bump_id]
    exact absurd this (hnew a ha)
  · rw [hs] at hr'
    rcases List.mem_append.mp hr' with h | h
    · exact absurd rfl (hnew r' h)
    · have hr'eq : r' = mkLink s.nextId c url now := by simpa using h
      obtain ⟨codeArg, rand, fuel, hop⟩ := hop
      exact ⟨by rw [hr'eq]; rfl, by rw [hr'eq]; rfl, by rw [hr'eq]; rfl,
        now, url, codeArg, rand, fuel, hop⟩

/-- A row can only vanish through `DELETE` of its own code. -/
theorem vanish_char (s : St) (op : Op) (r : Link) (hr : r ∈ s.links)
    (hgone : ∀ r' ∈ (applyOp s op).links, r'.id ≠ r.id) :
    op = Op.del r.code := by
  rcases applyOp_shape s op with hs | ⟨c, hv, hop, hs⟩ |
      ⟨link, now, hlink, hop, hapi, hhz, hvl, hs⟩ | ⟨c, url, now, hfresh, hs, hop⟩
  · exact absurd rfl (hgone r (by rw [hs]; exact hr))
  · by_cases hcode : r.code = c
    · rw [hop, hcode]
    · exfalso
      have : r ∈ (applyOp s op).links := by
        rw [hs]
        exact List.mem_filter.mpr ⟨hr, by simp [hcode]⟩
      exact hgone r this rfl
  · exfalso
    have : bump link.id now r ∈ (applyOp s op).links := by
      rw [hs]; exact List.mem_map_of_mem _ hr
    exact hgone _ this (bump_id _ _ _)
  · exact absurd rfl (hgone r (by rw [hs]; exact List.mem_append.mpr (Or.inl hr)))

/-- Well-formedness is preserved by every request. -/
theorem WF_applyOp (s : St) (op : Op) (hWF : WF s) : WF (applyOp s op) := by
  obtain ⟨hpid, hpcode, hbound⟩ := hWF
  rcases applyOp_shape s op with hs | ⟨c, hv, hop, hs⟩ |
      ⟨link, now, hlink, hop, hapi, hhz, hvl, hs⟩ | ⟨c, url, now, hfresh, hs, hop⟩
  · rw [hs]; exact ⟨hpid, hpcode, hbound⟩
  · rw [hs]
    refine ⟨List.Pairwise.sublist (List.filter_sublist _) hpid,
      List.Pairwise.sublist (List.filter_sublist _) hpcode, ?_⟩
    intro r hrm
    exact hbound r (List.mem_of_mem_filter hrm)
  · rw [hs]
    refine ⟨?_, ?_, ?_⟩
    · exact List.pairwise_map.mpr (hpid.imp (by
        intro a b h
        rw [bump_id, bump_id]; exact h))
    · exact List.pairwise_map.mpr (hpcode.imp (by
        intro a b h
        rw [bump_code, bump_code]; exact h))
    · intro r hrm
      rcases List.mem_map.mp hrm with ⟨a, ha, hab⟩
      rw [← hab, bump_id]
      exact hbound a ha
  · rw [hs]
    refine ⟨?_, ?_, ?_⟩
    · refine List.pairwise_append.mpr ⟨hpid, List.pairwise_singleton _ _, ?_⟩
      intro a ha b hb
      have hb' : b = mkLink s.nextId c url now := by simpa using hb
      have := hbound a ha
      rw [hb']
      intro hEq
      simp only [mkLink] at hEq
      omega
    · refine List.pairwise_append.mpr ⟨hpcode, List.pairwise_singleton _ _, ?_⟩
      intro a ha b hb
      have hb' : b = mkLink s.nextId c url now := by simpa using hb
      rw [hb']
      exact hfresh a ha
    · intro r hrm
      rcases List.mem_append.mp hrm with h | h
      · have := hbound r h
        show r.id < s.nextId + 1
        omega
      · have : r = mkLink s.nextId c url now := by simpa using h
        rw [this]
        show s.nextId < s.nextId + 1
        omega

/-- The serial id counter never decreases. -/
theorem nextId_mono (s : St) (op : Op) : s.nextId ≤ (applyOp s op).nextId := by
  rcases applyOp_shape s op with hs | ⟨c, hv, hop, hs⟩ |
      ⟨link, now, hlink, hop, hapi, hhz, hvl, hs⟩ | ⟨c, url, now, hfresh, hs, hop⟩ <;>
    simp [hs]

/-- A row after one request either keeps an id present before or carries the
fresh serial id. -/
theorem mem_applyOp_id (s : St) (op : Op) (r' : Link)
    (hr' : r' ∈ (applyOp s op).links) :
    (∃ r ∈ s.links, r.id = r'.id) ∨ r'.id = s.nextId := by
  rcases applyOp_shape s op with hs | ⟨c, hv, hop, hs⟩ |
      ⟨link, now, hlink, hop, hapi, hhz, hvl, hs⟩ | ⟨c, url, now, hfresh, hs, hop⟩
  · rw [hs] at hr'; exact Or.inl ⟨r', hr', rfl⟩
  · rw [hs] at hr'; exact Or.inl ⟨r', List.mem_of_mem_filter hr', rfl⟩
  · rw [hs] at hr'
    rcases List.mem_map.mp hr' with ⟨a, ha, hab⟩
    exact Or.inl ⟨a, ha, by rw [← hab, bump_id]⟩
  · rw [hs] at hr'
    rcases List.mem_append.mp hr' with h | h
    · exact Or.inl ⟨r', h, rfl⟩
    · have : r' = mkLink s.nextId c url now := by simpa using h
      exact Or.inr (by rw [this]; rfl)

/-- Well-formedness is preserved by every sequence of requests. -/
theorem WF_applyOps (s : St) (ops : List Op) (hWF : WF s) : WF (applyOps s ops) := by
  induction ops generalizing s with
  | nil => exact hWF
  | cons op rest ih => exact ih (applyOp s op) (WF_applyOp s op hWF)

/-- The serial id counter never decreases over a sequence of requests. -/
theorem nextId_mono_many (s : St) (ops : List Op) :
    s.nextId ≤ (applyOps s ops).nextId := by
  induction ops generalizing s with
  | nil => exact Nat.le_refl _
  | cons op rest ih =>
      exact Nat.le_trans (nextId_mono s op) (ih (applyOp s op))

/-- A row after a sequence of requests either keeps an id present at the
start or carries an id at least the starting serial counter. -/
theorem mem_applyOps_id (s : St) (ops : List Op) (r' : Link)
    (hr' : r' ∈ (applyOps s ops).links) :
    (∃ r ∈ s.links, r.id = r'.id) ∨ s.nextId ≤ r'.id := by
  induction ops generalizing s with
  | nil => exact Or.inl ⟨r', hr', rfl⟩
  | cons op rest ih =>
      rcases ih (applyOp s op) hr' with ⟨r₁, hr₁, hid₁⟩ | hle
      · rcases mem_applyOp_id s op r₁ hr₁ with ⟨r, hrm, hid⟩ | hid
        · exact Or.inl ⟨r, hrm, by rw [hid, hid₁]⟩
        · exact Or.inr (by rw [← hid₁, hid])
      · exact Or.inr (Nat.le_trans (nextId_mono s op) hle)

/-- Visit counters never decrease across any sequence of requests. -/
theorem clicks_mono_many (s : St) (ops : List Op) (hWF : WF s) (r : Link)
    (hr : r ∈ s.links) (r' : Link) (hr' : r' ∈ (applyOps s ops).links)
    (hid : r.id = r'.id) : r.clicks ≤ r'.clicks := by
  induction ops generalizing s r with
  | nil =>
      obtain ⟨hpid, _, _⟩ := hWF
      rw [eq_of_mem_id s.links hpid r' hr' r hr hid.symm]
  | cons op rest ih =>
      rcases mem_applyOps_id (applyOp s op) rest r' hr' with ⟨r₁, hr₁, hid₁⟩ | hle
      · have h₁ : r.clicks ≤ r₁.clicks := by
          rcases step_char s op hWF r hr r₁ hr₁ (by rw [hid, ← hid₁]) with h | ⟨now, h, _⟩
          · rw [h]
          · rw [h]; exact Nat.le_succ _
        exact Nat.le_trans h₁
          (ih (applyOp s op) (WF_applyOp s op hWF) r₁ hr₁ hr' hid₁)
      · exfalso
        obtain ⟨_, _, hbound⟩ := hWF
        have h₁ := hbound r hr
        have h₂ := nextId_mono s op
        omega

/-- A well-formed code is never the empty string. -/
theorem isValidCode_ne_empty (c : String) (h : isValidCode c = true) : c ≠ "" := by
  intro hc
  rw [hc] at h
  exact absurd h (by decide)

/-! Concrete fixtures used by witnesses and counterexamples. -/

/-- Random stream that always draws index 0, so every candidate is `aaaaaa`. -/
def randA : Nat → Fin 62 := fun _ => 0

/-- A stored row with code `abcdef`. -/
def linkAB : Link := mkLink 0 "abcdef" "https://example.com" 0

/-- Store holding only `linkAB`. -/
def stAB : St := ⟨[linkAB], 1⟩

/-- Row `linkAB` after one recorded visit at time 5. -/
def linkAB1 : Link := { linkAB with clicks := 1, last_clicked_at := some 5 }

/-- A row with code `aaaaaa`, playing the concurrent writer. -/
def linkAA : Link := mkLink 0 "aaaaaa" "https://y.com" 0

/-- A stored row with code `healthz`. -/
def linkHZ : Link := mkLink 0 "healthz" "https://example.com" 0

/-- Store holding only `linkHZ`. -/
def stHZ : St := ⟨[linkHZ], 1⟩

/-! The claims. -/

/-- C5: format validation returns true for exactly those strings that match
`[A-Za-z0-9]{6,8}`: length 6 to 8 and every character in the 62-symbol
alphabet `A-Z`, `a-z`, `0-9`; every other string (empty, length 5, length 9,
or with a non-alphanumeric character) is rejected. -/
theorem C5_isValidCode_char (code : String) :
    isValidCode code = true ↔
      6 ≤ code.length ∧ code.length ≤ 8 ∧ ∀ c ∈ code.data, c ∈ ALPHABET.data := by
  unfold isValidCode
  simp only [Bool.and_eq_true, decide_eq_true_eq, List.all_eq_true]
  constructor
  · rintro ⟨⟨h1, h2⟩, h3⟩
    exact ⟨h1, h2, fun c hc => (isCodeChar_iff_mem c).mp (h3 c hc)⟩
  · rintro ⟨h1, h2, h3⟩
    exact ⟨⟨h1, h2⟩, fun c hc => (isCodeChar_iff_mem c).mpr (h3 c hc)⟩

/-- Witness for C5 at the sample code `Ab3xZ9` of `src/utils.js`. -/
theorem C5_witness : isValidCode "Ab3xZ9" = true :=
  (C5_isValidCode_char "Ab3xZ9").mpr ⟨by decide, by decide, by decide⟩

/-- C6: for every desired length `L` with `6 ≤ L ≤ 8` and every random
stream, the generated code is a string of exactly length `L` whose characters
all come from the 62-symbol alphabet.  `generateCode` is a plain function of
its arguments, so it has no side effects on any state. -/
theorem C6_generateCode_ok (rand : Nat → Fin 62) (offset L : Nat)
    (h6 : 6 ≤ L) (h8 : L ≤ 8) :
    (generateCode rand offset L).length = L ∧
      ∀ c ∈ (generateCode rand offset L).data, c ∈ ALPHABET.data := by
  exact ⟨generateChars_length rand offset L, generateChars_mem rand offset L⟩

/-- Witness for C6 at length 6 with the constant stream. -/
theorem C6_witness : (generateCode randA 0 6).length = 6 :=
  (C6_generateCode_ok randA 0 6 (by decide) (by decide)).1

/-- C2 fails on the code: with the row `linkAB` stored, a resolution of its
code whose visit-recording `UPDATE` throws reaches the `catch` clause, which
answers 500; the destination is not returned, contradicting the claim that a
visit-recording failure never fails the resolution. -/
theorem C2_counterexample :
    resolveCode stAB 5 "abcdef" true = (.serverError, stAB) ∧
      ∀ u, (resolveCode stAB 5 "abcdef" true).1 ≠ ResolveRes.redirect u := by
  refine ⟨by decide, ?_⟩
  intro u h
  rw [show (resolveCode stAB 5 "abcdef" true).1 = ResolveRes.serverError from by decide] at h
  exact ResolveRes.noConfusion h

/-- C2 amended: when the record exists but the visit-recording update fails,
`GET /:code` answers 500 (server error) and does not redirect; the store is
left unchanged. -/
theorem C2_amended (s : St) (now : Nat) (code : String) (link : Link)
    (h1 : code ≠ "api") (h2 : code ≠ "healthz") (h3 : isValidCode code = true)
    (h4 : s.links.find? (fun l => l.code == code) = some link) :
    resolveCode s now code true = (.serverError, s) := by
  simp [resolveCode, h1, h2, h3, h4]

/-- Witness for the amended C2 on the concrete store `stAB`. -/
theorem C2_amended_witness : resolveCode stAB 5 "abcdef" true = (.serverError, stAB) :=
  C2_amended stAB 5 "abcdef" linkAB (by decide) (by decide) (by decide) (by decide)

/-- C3 fails on the code at the empty requested code: JS truthiness makes
`if (finalCode)` skip validation for `""`, so a provided empty-string code is
treated as absent, a code is generated, and a row is inserted — instead of
the claimed `Invalid` with an unchanged store. -/
theorem C3_counterexample :
    isValidCode "" = false ∧
      createLink ⟨[], 0⟩ 0 "https://x.com" (some "") randA [] 1 =
        some (.created (mkLink 0 "aaaaaa" "https://x.com" 0),
          ⟨[mkLink 0 "aaaaaa" "https://x.com" 0], 1⟩) ∧
      (⟨[mkLink 0 "aaaaaa" "https://x.com" 0], 1⟩ : St) ≠ ⟨[], 0⟩ :=
  ⟨by decide, by decide, by decide⟩

/-- C3 amended: an unparseable destination or a provided non-empty requested
code failing `[A-Za-z0-9]{6,8}` yields the 400 response with the store
unchanged, before any store operation; a provided empty-string requested code
is treated exactly like an absent one (a code is generated). -/
theorem C3_amended (s : St) (now : Nat) (url : String) (code : Option String)
    (rand : Nat → Fin 62) (inter : List Link) (fuel : Nat) :
    (url ≠ "" → isValidUrl url = false →
      createLink s now url code rand inter fuel = some (.invalidUrl, s)) ∧
    (createLink s now "" code rand inter fuel = some (.urlRequired, s)) ∧
    (∀ c, c ≠ "" → isValidCode c = false → url ≠ "" → isValidUrl url = true →
      createLink s now url (some c) rand inter fuel = some (.invalidCode, s)) ∧
    (createLink s now url (some "") rand inter fuel =
      createLink s now url none rand inter fuel) := by
  refine ⟨?_, ?_, ?_, ?_⟩
  · intro h1 h2
    simp [createLink, h1, h2]
  · simp [createLink]
  · intro c h1 h2 h3 h4
    simp [createLink, h1, h2, h3, h4]
  · by_cases h1 : url = ""
    · simp [createLink, h1]
    · by_cases h2 : isValidUrl url = true
      · simp [createLink, h1, h2]
      · simp [createLink, h1, h2]

/-- Witness for the amended C3: a non-URL destination is rejected with the
store unchanged. -/
theorem C3_amended_witness :
    createLink ⟨[], 0⟩ 0 "not-a-url" (some "abcdef") randA [] 1 =
      some (.invalidUrl, ⟨[], 0⟩) :=
  (C3_amended ⟨[], 0⟩ 0 "not-a-url" (some "abcdef") randA [] 1).1
    (by decide) (by decide)

/-- C1 fails on the code: in the generated-code path, the pre-check loop sees
an empty store and picks `aaaaaa`, but a concurrent writer (`linkAA`) commits
that code before the `INSERT`; the store reports a uniqueness conflict and
the handler's `catch` answers 409 Conflict to the caller — it does not retry,
so a store-level insert conflict is not treated like a pre-check conflict. -/
theorem C1_counterexample :
    createLink ⟨[], 0⟩ 0 "https://x.com" none randA [linkAA] 1 =
      some (.conflict, ⟨[], 0⟩) := by
  decide

/-- C1 amended: without a requested code the handler retries only in the
pre-check loop — the accepted candidate is always absent from the rows the
loop checked — and then attempts a single insert: if rows committed
concurrently contain the candidate, the store conflict is returned to the
caller as Conflict; only otherwise does the insert commit. -/
theorem C1_amended (s : St) (now : Nat) (url : String) (rand : Nat → Fin 62)
    (inter : List Link) (fuel : Nat) (c : String)
    (h1 : url ≠ "") (h2 : isValidUrl url = true)
    (h3 : findFresh s.links rand fuel 0 = some c) :
    (∀ l ∈ s.links, l.code ≠ c) ∧
    ((∃ l ∈ inter, l.code = c) →
      createLink s now url none rand inter fuel = some (.conflict, s)) ∧
    ((∀ l ∈ inter, l.code ≠ c) →
      createLink s now url none rand inter fuel =
        some (.created (mkLink s.nextId c url now),
          ⟨s.links ++ [mkLink s.nextId c url now], s.nextId + 1⟩)) := by
  have hfresh := findFresh_fresh s.links rand fuel 0 c h3
  refine ⟨hfresh, ?_, ?_⟩
  · rintro ⟨l, hl, hc⟩
    have hany : (s.links ++ inter).any (fun l => l.code == c) = true :=
      List.any_eq_true.mpr ⟨l, List.mem_append.mpr (Or.inr hl), by simp [hc]⟩
    simp [createLink, h1, h2, createGenerated, h3, tryInsert, hany]
  · intro hn
    have hany : (s.links ++ inter).any (fun l => l.code == c) = false := by
      rw [List.any_eq_false]
      intro l hl
      rcases List.mem_append.mp hl with h | h
      · simp [hfresh l h]
      · simp [hn l h]
    simp [createLink, h1, h2, createGenerated, h3, tryInsert, hany]

/-- Witness for the amended C1: with no concurrent writer the accepted
candidate commits. -/
theorem C1_amended_witness :
    createLink ⟨[], 0⟩ 0 "https://x.com" none randA [] 1 =
      some (.created (mkLink 0 "aaaaaa" "https://x.com" 0),
        ⟨[mkLink 0 "aaaaaa" "https://x.com" 0], 1⟩) :=
  (C1_amended ⟨[], 0⟩ 0 "https://x.com" randA [] 1 "aaaaaa"
    (by decide) (by decide) (by decide)).2.2 (by decide)

/-- C4: `GET /:code` checks the code format before any store access (for a
malformed code the answer is the 404 of the invalid-format branch and the
store is untouched, whatever it holds); a well-formed but absent code yields
the not-found 404; and on success the redirect carries the stored
destination while exactly the row with the id just read gets `clicks`
incremented by 1 and `last_clicked_at` set to the current time — rows with
any other id are untouched, so the update is id-scoped, not re-resolved by
code. -/
theorem C4_resolve (s : St) (now : Nat) (code : String) (updateFails : Bool)
    (hapi : code ≠ "api") (hhz : code ≠ "healthz") :
    (isValidCode code = false →
      resolveCode s now code updateFails = (.notFound, s)) ∧
    (isValidCode code = true →
      s.links.find? (fun l => l.code == code) = none →
      resolveCode s now code updateFails = (.notFound, s)) ∧
    (∀ link, isValidCode code = true →
      s.links.find? (fun l => l.code == code) = some link →
      link ∈ s.links ∧ link.code = code ∧
      resolveCode s now code false =
        (.redirect link.original_url,
          ⟨s.links.map (bump link.id now), s.nextId⟩) ∧
      (∀ a ∈ s.links, a.id = link.id →
        ({ a with clicks := a.clicks + 1, last_clicked_at := some now } : Link) ∈
          (resolveCode s now code false).2.links) ∧
      (∀ a ∈ s.links, a.id ≠ link.id → a ∈ (resolveCode s now code false).2.links)) := by
  refine ⟨?_, ?_, ?_⟩
  · intro hv
    simp [resolveCode, hapi, hhz, hv]
  · intro hv hfind
    simp [resolveCode, hapi, hhz, hv, hfind]
  · intro link hv hfind
    have hmem : link ∈ s.links := List.mem_of_find?_eq_some hfind
    have hcode : link.code = code := by
      have := List.find?_some hfind
      simpa using this
    have hres : resolveCode s now code false =
        (.redirect link.original_url,
          ⟨s.links.map (bump link.id now), s.nextId⟩) := by
      simp [resolveCode, hapi, hhz, hv, hfind]
    refine ⟨hmem, hcode, hres, ?_, ?_⟩
    · intro a ha hid
      rw [hres]
      have : bump link.id now a =
          { a with clicks := a.clicks + 1, last_clicked_at := some now } :=
        bump_hit _ _ _ hid
      rw [← this]
      exact List.mem_map_of_mem _ ha
    · intro a ha hid
      rw [hres]
      have : bump link.id now a = a := bump_miss _ _ _ hid
      rw [← this]
      exact List.mem_map_of_mem _ ha

/-- Witness for C4 on the concrete store `stAB`. -/
theorem C4_witness :
    resolveCode stAB 5 "abcdef" false =
      (.redirect linkAB.original_url,
        ⟨stAB.links.map (bump linkAB.id 5), stAB.nextId⟩) :=
  ((C4_resolve stAB 5 "abcdef" false (by decide) (by decide)).2.2 linkAB
    (by decide) (by decide)).2.2.1

/-- C9: `DELETE /api/links/:code` validates the format first (malformed codes
are rejected with the store untouched); with a well-formed code it answers
"deleted" exactly when a row with that code existed, answers "not found"
(not an error) otherwise, removes every row with that code and keeps the
rest; and after a successful delete an Allocate with the same explicit code
succeeds, so the code is reusable. -/
theorem C9_delete (s : St) (code : String) :
    (isValidCode code = false → deleteLink s code = (.invalidFormat, s)) ∧
    (isValidCode code = true →
      ((deleteLink s code).1 = DeleteRes.deleted ↔ ∃ r ∈ s.links, r.code = code) ∧
      ((∀ r ∈ s.links, r.code ≠ code) → deleteLink s code = (.notFound, s)) ∧
      ((deleteLink s code).1 = DeleteRes.deleted →
        (∀ r ∈ (deleteLink s code).2.links, r.code ≠ code) ∧
        (∀ r ∈ s.links, r.code ≠ code → r ∈ (deleteLink s code).2.links))) ∧
    (∀ now url rand fuel, isValidCode code = true →
      url ≠ "" → isValidUrl url = true →
      (deleteLink s code).1 = DeleteRes.deleted →
      createLink (deleteLink s code).2 now url (some code) rand [] fuel =
        some (.created (mkLink (deleteLink s code).2.nextId code url now),
          ⟨(deleteLink s code).2.links ++
              [mkLink (deleteLink s code).2.nextId code url now],
            (deleteLink s code).2.nextId + 1⟩)) := by
  by_cases hv : isValidCode code = true
  · have hvn : ¬ isValidCode code = false := by simp [hv]
    by_cases hall : s.links.all (fun l => !(l.code == code)) = true
    · have hnone : ∀ r ∈ s.links, r.code ≠ code := by
        intro r hr
        have := List.all_eq_true.mp hall r hr
        simpa using this
      have hdel : deleteLink s code = (.notFound, s) := by
        simp [deleteLink, hv, hall]
      refine ⟨fun h => absurd h hvn, fun _ => ⟨?_, fun _ => hdel, ?_⟩, ?_⟩
      · rw [hdel]
        simp only [Prod.fst]
        constructor
        · intro h; exact absurd h (by decide)
        · rintro ⟨r, hr, hc⟩; exact absurd hc (hnone r hr)
      · intro h
        rw [hdel] at h
        simp at h
      · intro now url rand fuel _ _ _ h
        rw [hdel] at h
        simp at h
    · have hdel : deleteLink s code =
          (.deleted, ⟨s.links.filter (fun l => !(l.code == code)), s.nextId⟩) := by
        simp [deleteLink, hv, hall]
      have hex : ∃ r ∈ s.links, r.code = code := by
        rcases List.all_eq_true.not.mp hall with h
        push_neg at h
        rcases not_forall.mp (fun hc => hall (List.all_eq_true.mpr hc)) with ⟨r, hr⟩
        rcases not_forall.mp hr with ⟨hrm, hrc⟩
        refine ⟨r, hrm, ?_⟩
        by_contra hne
        exact hrc (by simp [hne])
      refine ⟨fun h => absurd h hvn, fun _ => ⟨?_, ?_, fun _ => ⟨?_, ?_⟩⟩, ?_⟩
      · rw [hdel]
        exact ⟨fun _ => hex, fun _ => rfl⟩
      · intro hnone
        rcases hex with ⟨r, hr, hc⟩
        exact absurd hc (hnone r hr)
      · intro r hr
        rw [hdel] at hr
        have := (List.mem_filter.mp hr).2
        simpa using this
      · intro r hr hc
        rw [hdel]
        exact List.mem_filter.mpr ⟨hr, by simp [hc]⟩
      · intro now url rand fuel _ hurl hvu h
        have hne : code ≠ "" := isValidCode_ne_empty code hv
        simp only [createLink, hurl, hvu, hne, hv, tryInsert]
        simp only [List.append_nil]
        have hnocode : ((deleteLink s code).2.links).any
            (fun l => l.code == code) = false := by
          rw [List.any_eq_false]
          intro l hl
          rw [hdel] at hl
          have := (List.mem_filter.mp hl).2
          simpa using this
        simp [hnocode]
  · have hv' : isValidCode code = false := by
      cases h : isValidCode code
      · rfl
      · exact absurd h hv
    refine ⟨fun _ => by simp [deleteLink, hv'], fun h => absurd h hv, ?_⟩
    intro now url rand fuel h
    exact absurd h hv

/-- Witness for C9: deleting the stored code `abcdef` then allocating it
again succeeds. -/
theorem C9_witness :
    createLink (deleteLink stAB "abcdef").2 7 "https://x.com" (some "abcdef")
        randA [] 1 =
      some (.created (mkLink (deleteLink stAB "abcdef").2.nextId "abcdef"
          "https://x.com" 7),
        ⟨(deleteLink stAB "abcdef").2.links ++
            [mkLink (deleteLink stAB "abcdef").2.nextId "abcdef" "https://x.com" 7],
          (deleteLink stAB "abcdef").2.nextId + 1⟩) :=
  (C9_delete stAB "abcdef").2.2 7 "https://x.com" randA 1
    (by decide) (by decide) (by decide) (by decide)

/-- C7: `visitCount` (`clicks`, a natural number, hence non-negative) never
decreases under any request; it changes only through a successful resolution
of that row's own code, and then by exactly 1; a row not present before a
request starts at 0; and over any sequence of requests the counter of a
surviving row is monotonically non-decreasing. -/
theorem C7_clicks (s : St) (op : Op) (hWF : WF s) :
    (∀ r ∈ s.links, ∀ r' ∈ (applyOp s op).links, r.id = r'.id →
      r.clicks ≤ r'.clicks ∧
      (r.clicks ≠ r'.clicks →
        ∃ now, op = Op.resolve now r.code false ∧ r'.clicks = r.clicks + 1)) ∧
    (∀ r' ∈ (applyOp s op).links, (∀ r ∈ s.links, r.id ≠ r'.id) → r'.clicks = 0) ∧
    (∀ ops, ∀ r ∈ s.links, ∀ r' ∈ (applyOps s ops).links, r.id = r'.id →
      r.clicks ≤ r'.clicks) := by
  refine ⟨?_, ?_, ?_⟩
  · intro r hr r' hr' hid
    rcases step_char s op hWF r hr r' hr' hid with h | ⟨now, h, hop, _, _⟩
    · rw [h]
      exact ⟨Nat.le_refl _, fun hne => absurd rfl hne⟩
    · rw [h]
      exact ⟨Nat.le_succ _, fun _ => ⟨now, hop, rfl⟩⟩
  · intro r' hr' hnew
    exact (new_row_char s op r' hr' hnew).1
  · intro ops r hr r' hr' hid
    exact clicks_mono_many s ops hWF r hr r' hr' hid

/-- Witness for C7: a resolution of `abcdef` bumps its row from 0 to 1. -/
theorem C7_witness : linkAB.clicks ≤ linkAB1.clicks :=
  ((C7_clicks stAB (Op.resolve 5 "abcdef" false) (by decide)).1 linkAB
    (by decide) linkAB1 (by decide) (by decide)).1

/-- C8: no request ever modifies `id`, `code`, `original_url` or
`created_at` of an existing row; the only field-level mutation of an
existing row is the visit bump of `clicks` and `last_clicked_at` by a
successful resolution of that row's code; rows appear only through
`POST /api/links` (with fresh counters) and vanish only through
`DELETE /api/links/:code` of their own code. -/
theorem C8_frame (s : St) (op : Op) (hWF : WF s) :
    (∀ r ∈ s.links, ∀ r' ∈ (applyOp s op).links, r.id = r'.id →
      (r'.code = r.code ∧ r'.original_url = r.original_url ∧
        r'.created_at = r.created_at) ∧
      (r' = r ∨ ∃ now,
        r' = { r with clicks := r.clicks + 1, last_clicked_at := some now } ∧
        op = Op.resolve now r.code false)) ∧
    (∀ r' ∈ (applyOp s op).links, (∀ r ∈ s.links, r.id ≠ r'.id) →
      (∃ now url codeArg rand fuel, op = Op.create now url codeArg rand fuel) ∧
      r'.clicks = 0 ∧ r'.last_clicked_at = none) ∧
    (∀ r ∈ s.links, (∀ r' ∈ (applyOp s op).links, r'.id ≠ r.id) →
      op = Op.del r.code) := by
  refine ⟨?_, ?_, ?_⟩
  · intro r hr r' hr' hid
    rcases step_char s op hWF r hr r' hr' hid with h | ⟨now, h, hop, _, _⟩
    · rw [h]
      exact ⟨⟨rfl, rfl, rfl⟩, Or.inl rfl⟩
    · rw [h]
      exact ⟨⟨rfl, rfl, rfl⟩, Or.inr ⟨now, rfl, hop⟩⟩
  · intro r' hr' hnew
    obtain ⟨h1, h2, _, now, url, codeArg, rand, fuel, hop⟩ :=
      new_row_char s op r' hr' hnew
    exact ⟨⟨now, url, codeArg, rand, fuel, hop⟩, h1, h2⟩
  · intro r hr hgone
    exact vanish_char s op r hr hgone

/-- Witness for C8: deleting `abcdef` is the only way its row vanished. -/
theorem C8_witness : Op.del "abcdef" = Op.del linkAB.code :=
  (C8_frame stAB (Op.del "abcdef") (by decide)).2.2 linkAB (by decide) (by decide)

/-- C10: the string `healthz` matches the code format, so it can be
allocated as an explicit code; yet `GET /:code` answers requests for
`healthz` (and `api`) with the reserved 404 before any lookup, whatever the
store holds and leaving it untouched, so a link stored under `healthz` can
never be resolved and its `visitCount` stays 0 across every sequence of
requests. -/
theorem C10_healthz :
    isValidCode "healthz" = true ∧
    createLink ⟨[], 0⟩ 0 "https://example.com" (some "healthz") randA [] 1 =
      some (.created (mkLink 0 "healthz" "https://example.com" 0),
        ⟨[mkLink 0 "healthz" "https://example.com" 0], 1⟩) ∧
    (∀ s now updateFails,
      resolveCode s now "healthz" updateFails = (.reservedNotFound, s)) ∧
    (∀ s now updateFails,
      resolveCode s now "api" updateFails = (.reservedNotFound, s)) ∧
    (∀ s ops r, WF s → r ∈ s.links → r.code = "healthz" → r.clicks = 0 →
      ∀ r' ∈ (applyOps s ops).links, r'.id = r.id → r'.clicks = 0) := by
  refine ⟨by decide, by decide, ?_, ?_, ?_⟩
  · intro s now updateFails
    simp [resolveCode]
  · intro s now updateFails
    simp [resolveCode]
  · intro s ops
    induction ops generalizing s with
    | nil =>
        intro r hWF hr hcode hclicks r' hr' hid
        obtain ⟨hpid, _, _⟩ := hWF
        rw [eq_of_mem_id s.links hpid r' hr' r hr hid]
        exact hclicks
    | cons op rest ih =>
        intro r hWF hr hcode hclicks r' hr' hid
        rcases mem_applyOps_id (applyOp s op) rest r' hr' with ⟨r₁, hr₁, hid₁⟩ | hle
        · have hidr : r.id = r₁.id := (hid₁.trans hid).symm
          rcases step_char s op hWF r hr r₁ hr₁ hidr with h | ⟨now, _, _, _, hhz⟩
          · subst h
            exact ih (applyOp s op) r₁ (WF_applyOp s op hWF) hr₁ hcode hclicks
              r' hr' hid₁.symm
          · exact absurd hcode hhz
        · exfalso
          obtain ⟨_, _, hbound⟩ := hWF
          have h₁ := hbound r hr
          have h₂ := nextId_mono s op
          omega

/-- Witness for C10: after a resolution request for `healthz`, the stored
`healthz` link still has zero visits. -/
theorem C10_witness : linkHZ.clicks = 0 :=
  C10_healthz.2.2.2.2 stHZ [Op.resolve 5 "healthz" false] linkHZ (by decide)
    (by decide) (by decide) (by decide) linkHZ (by decide) (by decide)

end TinyLink


